import Mathlib

/-!
Shallow embedding of the decision-logic core of the SWE-agent repository:
the action tournament (`sweagent/agent/action_sampler.py` and
`sweagent/agent/best_response_picker.py`), the submission reviewer and the
budget-bounded retry controller (`sweagent/agent/reviewer.py`).

Conventions of the embedding:
* Python `str` is Lean `String` (Python `len` counts code points, as does
  `String.length`).
* Python `float` scores/costs are modelled as `ℚ`; the algorithms only use
  field arithmetic and order comparisons on them.
* Python functions that can raise are embedded as `Option`-valued functions
  (`none` = the exception propagates).
* The model (LLM) is an external collaborator: its responses are passed in
  as explicit oracle arguments, and prompt/template rendering (pure string
  building that is only ever sent back to the model) is passed in as the
  already-rendered message list.
-/

namespace SweAgent

/-! ### Python string primitives -/

/-- The characters Python `str.strip()` removes. -/
def isPySpace (c : Char) : Bool :=
  c == ' ' || c == '\t' || c == '\n' || c == '\r' || c == '\x0b' || c == '\x0c'

/-- Python `s.strip()`: drop leading and trailing whitespace. -/
def pyStrip (s : String) : String :=
  ⟨((s.toList.dropWhile isPySpace).reverse.dropWhile isPySpace).reverse⟩

/-- Python `s.lower()` (ASCII case folding, which is all the code relies on). -/
def pyLower (s : String) : String :=
  ⟨s.toList.map Char.toLower⟩

/-- Does `pat` occur at the start of `l`? (helper for substring search). -/
def hasPrefixCL : List Char → List Char → Bool
  | [], _ => true
  | _ :: _, [] => false
  | p :: ps, c :: cs => p == c && hasPrefixCL ps cs

/-- Does `pat` occur anywhere in `l`? (helper for substring search). -/
def hasSubCL (pat : List Char) : List Char → Bool
  | [] => hasPrefixCL pat []
  | c :: cs => hasPrefixCL pat (c :: cs) || hasSubCL pat cs

/-- Python `pat in s` (substring containment). -/
def strContainsSub (s pat : String) : Bool :=
  hasSubCL pat.toList s.toList

/-- Python `s.split("\n")` on the character list: split at every newline
(`[[]]` on the empty input, exactly as in Python). -/
def splitNl : List Char → List (List Char)
  | [] => [[]]
  | c :: cs =>
    if c = '\n' then [] :: splitNl cs
    else (c :: (splitNl cs).headD []) :: (splitNl cs).tail

/-- Python `response.strip().split("\n")[-1].strip()`: the last line of the
stripped response, itself stripped.  All three interpreters in the source
extract the verdict from this line. -/
def lastLine (response : String) : String :=
  pyStrip ⟨(splitNl (pyStrip response).toList).getLastD []⟩

/-! ### The decimal-number scanner (`re` usage in `reviewer.py`)

`reviewer.py` uses the pattern `\d+\.?\d*` with `re.search` (first match,
`BinaryReviewer.interpret`) and `re.findall` (all non-overlapping matches,
`Reviewer.interpret`).  A match is a maximal digit run, optionally followed
by a dot and a further digit run. -/

/-- The match of `\d+\.?\d*` starting at the head of `l` (meaningful when the
head is a digit). -/
def matchNumber (l : List Char) : List Char :=
  let ds := l.takeWhile (·.isDigit)
  let rest := l.drop ds.length
  match rest with
  | '.' :: rest2 => ds ++ '.' :: rest2.takeWhile (·.isDigit)
  | _ => ds

/-- `re.search(r"\d+\.?\d*", ·)`: the first match, if any. -/
def findFirstNumber : List Char → Option (List Char)
  | [] => none
  | c :: cs => if c.isDigit then some (matchNumber (c :: cs)) else findFirstNumber cs

/-- Splits a character list at the end of its maximal digit prefix
(`(l.takeWhile isDigit, l.dropWhile isDigit)`, computed in one structural
pass). -/
def splitWhileDigit : List Char → List Char × List Char
  | [] => ([], [])
  | c :: cs =>
    if c.isDigit then
      let p := splitWhileDigit cs
      (c :: p.1, p.2)
    else ([], c :: cs)

/-- The match of `\d+\.?\d*` starting at the head of `l`, together with the
unconsumed remainder. -/
def matchNumberSplit (l : List Char) : List Char × List Char :=
  let p := splitWhileDigit l
  match p.2 with
  | '.' :: rest2 =>
    let q := splitWhileDigit rest2
    (p.1 ++ '.' :: q.1, q.2)
  | _ => (p.1, p.2)

/-- `re.findall(r"\d+\.?\d*", ·)`: all non-overlapping matches, left to
right.  Structural recursion on a fuel argument; since every step consumes
at least one character, fuel equal to the input length is always enough. -/
def findAllAux : ℕ → List Char → List (List Char)
  | 0, _ => []
  | _ + 1, [] => []
  | fuel + 1, c :: cs =>
    if c.isDigit then
      let p := matchNumberSplit (c :: cs)
      p.1 :: findAllAux fuel p.2
    else findAllAux fuel cs

/-- `re.findall(r"\d+\.?\d*", ·)` on a character list. -/
def findAllNumbers (l : List Char) : List (List Char) :=
  findAllAux l.length l

/-- Value of a digit character. -/
def digitVal (c : Char) : ℕ := c.toNat - '0'.toNat

/-- Python `int` of a digit string. -/
def digitsToNat (l : List Char) : ℕ :=
  l.foldl (fun n c => 10 * n + digitVal c) 0

/-- Python `float(m)` for a match `m` of `\d+\.?\d*`, as a rational. -/
def parseQ (m : List Char) : ℚ :=
  let ds := m.takeWhile (·.isDigit)
  let rest := m.drop ds.length
  match rest with
  | '.' :: fs => (digitsToNat ds : ℚ) + (digitsToNat fs : ℚ) / ((10 : ℚ) ^ fs.length)
  | _ => (digitsToNat ds : ℚ)

/-! ### The three response interpreters -/

/-- `BinaryTrajectoryComparison.interpret` (identical in
`action_sampler.py` and `best_response_picker.py`): `0` for "first",
`1` for "second", default `0`. -/
def samplerInterpret (response : String) : ℕ :=
  let line := lastLine response
  if strContainsSub (pyLower line) "first" then 0
  else if strContainsSub (pyLower line) "second" then 1
  else 0

/-- `Reviewer.interpret`, `output_type = "bool"` branch. -/
def reviewerInterpretBool (response : String) : Bool :=
  let line := lastLine response
  if strContainsSub (pyLower line) "success" then true
  else if strContainsSub (pyLower line) "fail" then false
  else false

/-- `Reviewer.interpret`, `output_type = "float"` branch: all decimal numbers
in the last line; the last one is the score; with no number, the code logs a
warning and returns `0.0`. -/
def reviewerInterpretFloat (response : String) : ℚ :=
  let nums := findAllNumbers (lastLine response).toList
  if nums.isEmpty then 0 else parseQ (nums.getLastD [])

/-- `BinaryReviewer.interpret`: winner (0 = first, 1 = second) and
confidence.  The first decimal number of the last line is the confidence,
clamped to at most `100` and divided by `100`; with no side keyword the
result is `(0, 0)`. -/
def binReviewerInterpret (response : String) : ℕ × ℚ :=
  let line := lastLine response
  let confidence0 : ℚ :=
    match findFirstNumber line.toList with
    | some m => parseQ m
    | none => 0
  let confidence1 : ℚ := if confidence0 > 100 then 100 else confidence0
  let confidence : ℚ := confidence1 / 100
  if strContainsSub (pyLower line) "first" then (0, confidence)
  else if strContainsSub (pyLower line) "second" then (1, confidence)
  else (0, 0)

/-! ### `BinaryTrajectoryComparison` (action tournament, `action_sampler.py`)

A raw completion is identified with its message text (`String`).  The
external `parse_actions` collaborator is an oracle
`String → Option (String × String)` returning the `(thought, action)` pair,
or `none` on a `FormatError`.  Judge responses for the sequential
comparisons are an oracle list (the i-th comparison reads entry `i`). -/

/-- One step of the loop body of `filter_duplicates`: the state is the three
parallel lists `(thoughts, actions, counts)`. -/
def fdStep (st : List String × List String × List ℕ) (pc : String × String) :
    List String × List String × List ℕ :=
  let ths := st.1
  let acts := st.2.1
  let cnts := st.2.2
  if pc.2 ∈ acts then
    let found := acts.indexOf pc.2
    (if (ths.getD found "").length < pc.1.length then ths.set found pc.1 else ths,
     acts,
     cnts.set found (cnts.getD found 0 + 1))
  else
    (ths ++ [pc.1], acts ++ [pc.2], cnts ++ [1])

/-- `BinaryTrajectoryComparison.filter_duplicates`: deduplicate parsed
`(thought, action)` pairs, counting votes and keeping the strictly longer
thought; finally `zip(thoughts, actions, counts)`. -/
def filterDuplicates (completions : List (String × String)) :
    List (String × String × ℕ) :=
  let st := completions.foldl fdStep ([], [], [])
  st.1.zip (st.2.1.zip st.2.2)

/-- `BinaryTrajectoryComparison.parse_completions`: parse every completion,
dropping failures; raise `FormatError` (`none`) when none parses. -/
def parseCompletions (parseFn : String → Option (String × String))
    (completions : List String) : Option (List (String × String)) :=
  let parsed := completions.filterMap parseFn
  if parsed.isEmpty then none else some parsed

/-- The comparison loop of `BinaryTrajectoryComparison.get_action`: for
`i = 1, …, n-1` query the judge (oracle `responses`, one entry per
comparison) and update the champion index; the log records
`(champion, challenger, verdict)` for every comparison.  Prompt rendering is
omitted: the rendered text is only sent to the judge, which is the oracle. -/
def tournamentFold (responses : List String) (n : ℕ) : ℕ × List (ℕ × ℕ × ℕ) :=
  (List.range' 1 (n - 1)).foldl
    (fun st i =>
      let idx := samplerInterpret (responses.getD (i - 1) "")
      (if idx = 1 then i else st.1, st.2 ++ [(st.1, i, idx)]))
    (0, [])

/-- `BinaryTrajectoryComparison.get_action` (decision-relevant core): parse,
deduplicate, run the elimination, and return `completions[best_idx]`
together with the comparison log.  `none` models the propagated
`FormatError` when no completion parses. -/
def getActionBTC (parseFn : String → Option (String × String))
    (responses : List String) (completions : List String) :
    Option (String × List (ℕ × ℕ × ℕ)) :=
  match parseCompletions parseFn completions with
  | none => none
  | some parsed =>
    let deduped := filterDuplicates parsed
    let st := tournamentFold responses deduped.length
    some (completions.getD st.1 "", st.2)

/-! ### `Reviewer` (`reviewer.py`) -/

/-- A chat message; `cacheControl` models the `cache_control` marker set by
`_set_cache_control`. -/
structure Message where
  role : String
  content : String
  cacheControl : Bool := false
deriving DecidableEq

/-- `_set_cache_control(messages[-1])`. -/
def setLastCacheControl (msgs : List Message) : List Message :=
  match msgs.getLast? with
  | none => msgs
  | some m => msgs.dropLast ++ [{ m with cacheControl := true }]

/-- The value of `ReviewerResult.accept`: Python stores either a `bool`
(desk rejection) or a `float` (aggregated score) in this field. -/
inductive ScoreVal where
  | ofBool (b : Bool)
  | ofNum (q : ℚ)
deriving DecidableEq

/-- Numeric coercion Python applies whenever a score is used in arithmetic
or comparisons (`False = 0`, `True = 1`). -/
def ScoreVal.toQ : ScoreVal → ℚ
  | .ofBool b => if b then 1 else 0
  | .ofNum q => q

/-- `ReviewerConfig.output_type`. -/
inductive OutputType where
  | asBool
  | asFloat
deriving DecidableEq

/-- The fields of `ReviewerConfig` the decision logic reads. -/
structure ReviewerCfg where
  outputType : OutputType
  rejectExitStatus : Bool
  nSample : ℕ
deriving DecidableEq

/-- `ReviewerResult` (accept, outputs, messages). -/
structure ReviewerResultE where
  accept : ScoreVal
  outputs : List String
  messages : List Message
deriving DecidableEq

/-- One sampled judgment as a score: booleans sum as `0/1` in Python's
`sum(accepts)`. -/
def interpretScore (t : OutputType) (response : String) : ℚ :=
  match t with
  | .asBool => if reviewerInterpretBool response then 1 else 0
  | .asFloat => reviewerInterpretFloat response

/-- `Reviewer.review`.  `msgs` is the output of `format_messages` (rendered
prompt); `exitStatus` is `submission.info.get("exit_status")`; `responses`
is the model oracle (the k-th query returns `responses k`).  The second
component counts the model queries performed.  (With `nSample = 0` the
Python code would divide by zero; configured values are `≥ 1`.) -/
def reviewerReview (cfg : ReviewerCfg) (msgs : List Message)
    (exitStatus : Option String) (responses : ℕ → String) :
    ReviewerResultE × ℕ :=
  match exitStatus with
  | none =>
    ({ accept := .ofBool false,
       outputs := ["No exit status in submission, will reject."],
       messages := [] }, 0)
  | some es =>
    if es = "" then
      -- Python `if not exit_status` is also taken for the empty string
      ({ accept := .ofBool false,
         outputs := ["No exit status in submission, will reject."],
         messages := [] }, 0)
    else if cfg.rejectExitStatus ∧ pyStrip es ≠ "submitted" then
      ({ accept := .ofBool false,
         outputs := ["Submission desk-rejected because of exit status."],
         messages := [] }, 0)
    else
      let messages := if cfg.nSample > 1 then setLastCacheControl msgs else msgs
      let answers := (List.range cfg.nSample).map responses
      let accepts := answers.map (interpretScore cfg.outputType)
      ({ accept := .ofNum (accepts.sum / (accepts.length : ℚ)),
         outputs := answers,
         messages := messages }, cfg.nSample)

/-! ### `ScoreRetryLoop` (`reviewer.py`) -/

/-- The fields of a `ReviewSubmission` the retry loop reads. -/
structure Submission where
  exitStatus : Option String
deriving DecidableEq

/-- The fields of `ScoreRetryLoopConfig` the decision logic reads;
`maxAttemptsForScore` is the item list of the `dict[float, int]`. -/
structure LoopCfg where
  reviewerCfg : ReviewerCfg
  maxAttemptsForScore : List (ℚ × ℕ)
  maxNConsecExitCost : ℕ
  attemptCostLimit : ℚ
  minBudgetForNewAttempt : ℚ
  temperatureOverride : List ℚ

/-- The mutable state of a `ScoreRetryLoop` together with the model fields
it reads (`config.temperature`, `instance_cost_limit`, `stats.instance_cost`
and the model's class). -/
structure LoopState where
  submissions : List Submission
  reviews : List ReviewerResultE
  nConsecExitCost : ℕ
  terminalTemperature : Option ℚ
  modelTemperature : ℚ
  modelCostLimit : ℚ
  modelCost : ℚ
  modelIsHuman : Bool
  modelIsLiteLLM : Bool

/-- The state set up by `ScoreRetryLoop.__init__` for a given model. -/
def initLoopState (temperature costLimit cost : ℚ) (isHuman isLiteLLM : Bool) :
    LoopState :=
  { submissions := []
    reviews := []
    nConsecExitCost := 0
    terminalTemperature := none
    modelTemperature := temperature
    modelCostLimit := costLimit
    modelCost := cost
    modelIsHuman := isHuman
    modelIsLiteLLM := isLiteLLM }

/-- `ScoreRetryLoop.on_submit` followed by the `_review` it triggers:
append the submission, review it (appending the result) and update the
consecutive-exit-cost counter.  `msgs`/`responses` are the reviewer's
oracle inputs. -/
def onSubmit (cfg : LoopCfg) (s : LoopState) (sub : Submission)
    (msgs : List Message) (responses : ℕ → String) : LoopState :=
  let rev := (reviewerReview cfg.reviewerCfg msgs sub.exitStatus responses).1
  let es := sub.exitStatus.getD ""
  let n :=
    if es ≠ "" ∧ strContainsSub (pyLower es) "exit_cost" then
      s.nConsecExitCost + 1
    else 0
  { s with
    submissions := s.submissions ++ [sub]
    reviews := s.reviews ++ [rev]
    nConsecExitCost := n }

/-- `ScoreRetryLoop.on_attempt_started` / `_override_temperature`.  (On the
`assert`-failure path — terminal temperature never captured — we keep the
current temperature where Python would raise; no claim depends on it.) -/
def onAttemptStarted (cfg : LoopCfg) (s : LoopState) (iAttempt : ℕ) : LoopState :=
  if !s.modelIsLiteLLM then s
  else
    let s1 :=
      if iAttempt = 0 then { s with terminalTemperature := some s.modelTemperature }
      else s
    if iAttempt < cfg.temperatureOverride.length then
      { s1 with modelTemperature := cfg.temperatureOverride.getD iAttempt 0 }
    else
      { s1 with modelTemperature := s1.terminalTemperature.getD s1.modelTemperature }

/-- Python `max` over a list of scores; `none` models the `ValueError`
raised on an empty sequence. -/
def maxScoreQ : List ℚ → Option ℚ
  | [] => none
  | x :: t => some (t.foldl max x)

/-- Stable insertion for descending sort by key (Python
`sorted(items, reverse=True, key=lambda x: x[0])`). -/
def insertDescByKey (p : ℚ × ℕ) : List (ℚ × ℕ) → List (ℚ × ℕ)
  | [] => [p]
  | q :: t => if q.1 < p.1 then p :: q :: t else q :: insertDescByKey p t

/-- Descending stable sort by key. -/
def sortDescByKey (l : List (ℚ × ℕ)) : List (ℚ × ℕ) :=
  l.foldr insertDescByKey []

/-- The stop/continue decision of `ScoreRetryLoop.retry` once the maximum
score is computed: the score-tiered attempt table, the consecutive
exit-cost counter, and the remaining-budget check, in source order. -/
def retryBody (cfg : LoopCfg) (s : LoopState) (maxScore : ℚ) : Bool :=
  let nAttempts := s.submissions.length
  let maxAttempts :=
    match (sortDescByKey cfg.maxAttemptsForScore).find? (fun p => maxScore ≥ p.1) with
    | some p => p.2
    | none => 0
  if nAttempts ≥ maxAttempts ∧ maxAttempts > 0 then false
  else if s.nConsecExitCost ≥ cfg.maxNConsecExitCost ∧ cfg.maxNConsecExitCost > 0 then
    false
  else
    let remainingBudget := s.modelCostLimit - s.modelCost
    if cfg.minBudgetForNewAttempt > 0 ∧ remainingBudget < cfg.minBudgetForNewAttempt ∧
        ¬s.modelIsHuman then
      false
    else true

/-- `ScoreRetryLoop.retry`: first `max([r.accept for r in self._reviews])`
(`none` models the `ValueError` on an empty review list), then the stop
conditions. -/
def retryLoop (cfg : LoopCfg) (s : LoopState) : Option Bool :=
  (maxScoreQ (s.reviews.map (fun r => r.accept.toQ))).map (retryBody cfg s)

/-- The tie tolerance `1e-10` of `get_best`. -/
def epsTie : ℚ := 1 / 10 ^ 10

/-- `ScoreRetryLoop.get_best` on the list of review scores: `0` when no
reviews exist, otherwise the first index whose score is within `epsTie` of
the maximum.  (`best_indices` is never empty since the maximum itself
qualifies, so the `headD` default is unreachable.) -/
def getBest (scores : List ℚ) : ℕ :=
  if scores.length = 0 then 0
  else
    let best := (maxScoreQ scores).getD 0
    let idxs := (List.range scores.length).filter
      (fun i => decide (|scores.getD i 0 - best| ≤ epsTie))
    idxs.headD 0

/-- `ScoreRetryLoop.get_best` on the loop state. -/
def getBestLoop (s : LoopState) : ℕ :=
  getBest (s.reviews.map (fun r => r.accept.toQ))

/-- The states a `ScoreRetryLoop` can reach: the initial state, followed by
any interleaving of `on_attempt_started`, `on_submit` (with arbitrary
oracle inputs) and external model-cost changes.  (`on_model_query` and the
read-only methods do not modify the state.) -/
inductive ReachableLoop (cfg : LoopCfg) : LoopState → Prop where
  | init (temperature costLimit cost : ℚ) (isHuman isLiteLLM : Bool) :
      ReachableLoop cfg (initLoopState temperature costLimit cost isHuman isLiteLLM)
  | submit {s : LoopState} (sub : Submission) (msgs : List Message)
      (responses : ℕ → String) (h : ReachableLoop cfg s) :
      ReachableLoop cfg (onSubmit cfg s sub msgs responses)
  | attemptStarted {s : LoopState} (iAttempt : ℕ) (h : ReachableLoop cfg s) :
      ReachableLoop cfg (onAttemptStarted cfg s iAttempt)
  | externalCost {s : LoopState} (c : ℚ) (h : ReachableLoop cfg s) :
      ReachableLoop cfg { s with modelCost := c }

/-! ### Specification-side definitions

These follow the spec's words; the refinement theorems below compare them
with the functions embedded from the source. -/

/-- "replaces its thought if the new thought is strictly longer (by
character count)". -/
def keepLonger (t1 t2 : String) : String :=
  if t1.length < t2.length then t2 else t1

/-- The thought retained for one action after all its duplicates were
scanned: the first occurrence's thought, replaced by a later one exactly
when that one is strictly longer. -/
def bestThought : List String → String
  | [] => ""
  | t :: ts => ts.foldl keepLonger t

/-- The distinct elements of `l` in order of first occurrence. -/
def firstOccur (l : List String) : List String :=
  l.foldl (fun acc a => if a ∈ acc then acc else acc ++ [a]) []

/-- The candidates of `cs` whose action text is `a`, in order. -/
def occEntries (cs : List (String × String)) (a : String) : List (String × String) :=
  cs.filter (fun pc => pc.2 = a)

/-- The thoughts proposed for action `a`, in order. -/
def occThoughts (cs : List (String × String)) (a : String) : List String :=
  (occEntries cs a).map Prod.fst

/-- The number of occurrences of action `a` in `cs`. -/
def occCount (cs : List (String × String)) (a : String) : ℕ :=
  (occEntries cs a).length

/-- Deduplication as the spec words it: one entry per distinct action text
in order of first occurrence, with its vote count and retained thought. -/
def filterDuplicatesSpec (cs : List (String × String)) : List (String × String × ℕ) :=
  (firstOccur (cs.map Prod.snd)).map
    (fun a => (bestThought (occThoughts cs a), a, occCount cs a))

/-- Pairwise verdict interpretation as the spec words it, as a function of
the last line only: the decimal number of the line read as a confidence,
clamped to at most `100` via `min`, divided by `100`; winner by the
"first"/"second" keywords with default `(0, 0)`. -/
def binInterpretSpecLine (line : String) : ℕ × ℚ :=
  let confidence := min (((findFirstNumber line.toList).map parseQ).getD 0) 100 / 100
  if strContainsSub (pyLower line) "first" then (0, confidence)
  else if strContainsSub (pyLower line) "second" then (1, confidence)
  else (0, 0)

/-! ### Concrete fixtures used by witnesses and counterexamples -/

/-- A `parse_actions` oracle: `"A1"` and `"A2"` parse to the same action
`"a"`, `"B"` parses to action `"b"`, everything else fails. -/
def parseFnC1 : String → Option (String × String) := fun s =>
  if s = "A1" then some ("t", "a")
  else if s = "A2" then some ("t", "a")
  else if s = "B" then some ("u", "b")
  else none

/-- Three raw completions, two sharing an action. -/
def compsC1 : List String := ["A1", "A2", "B"]

/-- A reviewer configuration with desk rejection enabled. -/
def cfgRev : ReviewerCfg :=
  { outputType := .asFloat, rejectExitStatus := true, nSample := 1 }

/-- A rendered prompt pair. -/
def msgsW : List Message :=
  [{ role := "system", content := "sys" }, { role := "user", content := "usr" }]

/-- A retry-loop configuration with every stop condition disabled. -/
def cfgW : LoopCfg :=
  { reviewerCfg := cfgRev
    maxAttemptsForScore := []
    maxNConsecExitCost := 0
    attemptCostLimit := 0
    minBudgetForNewAttempt := 0
    temperatureOverride := [0] }

/-- `cfgW` with a minimal-budget stop condition. -/
def cfgW9 : LoopCfg := { cfgW with minBudgetForNewAttempt := 1 }

/-- A fresh loop state (cost limit 3, non-human LiteLLM model). -/
def stEmpty : LoopState := initLoopState 0 3 0 false true

/-- `stEmpty` after one submitted-and-reviewed attempt. -/
def stOne : LoopState :=
  onSubmit cfgW stEmpty ⟨some "submitted"⟩ msgsW (fun _ => "Score: 80")

/-- `stOne` with the cumulative model cost pushed over the budget. -/
def stHigh : LoopState := { stOne with modelCost := 100 }

/-! ## Helper lemmas -/

theorem findAllAux_eq_nil (fuel : ℕ) {l : List Char}
    (h : ∀ c ∈ l, c.isDigit = false) : findAllAux fuel l = [] := by
  induction fuel generalizing l with
  | zero => rfl
  | succ n ih =>
    cases l with
    | nil => rfl
    | cons c cs =>
      have hc : c.isDigit = false := h c (List.mem_cons_self c cs)
      simp only [findAllAux, hc, Bool.false_eq_true, if_false]
      exact ih (fun d hd => h d (List.mem_cons_of_mem c hd))

theorem findAllNumbers_eq_nil {l : List Char}
    (h : ∀ c ∈ l, c.isDigit = false) : findAllNumbers l = [] :=
  findAllAux_eq_nil l.length h

/-! ## Claim theorems -/

/-- C2: the spec claims that a judge response whose last non-empty line has
no decimal number makes the scalar interpretation raise a `ParseError`.
The source (`Reviewer.interpret`, `float` branch) instead logs a warning
and returns the default score `0.0`.  This closed counterexample exhibits a
response with no digit in its last line on which the interpretation returns
the score `0`. -/
theorem claim2_counterexample :
    (∀ c ∈ (lastLine "I cannot evaluate this.").toList, c.isDigit = false) ∧
    reviewerInterpretFloat "I cannot evaluate this." = 0 := by
  constructor
  · decide
  · decide

/-- C2 (amended): for every judge response whose last non-empty line
contains no decimal number, the scalar interpretation returns the default
score `0.0` (the caller receives a score, not an exception). -/
theorem claim2_theorem (response : String)
    (h : ∀ c ∈ (lastLine response).toList, c.isDigit = false) :
    reviewerInterpretFloat response = 0 := by
  unfold reviewerInterpretFloat
  rw [findAllNumbers_eq_nil h]
  rfl

/-- C2 witness: the amended theorem applied to a concrete response. -/
theorem claim2_witness : reviewerInterpretFloat "hello world" = 0 :=
  claim2_theorem "hello world" (by decide)

/-- C3: the spec claims `get_best()` returns a sentinel "none" value,
distinguishable from any valid submission index, when no reviews exist.
The source (`ScoreRetryLoop.get_best`) returns the plain index `0`: on a
freshly initialized controller the result is `0`, indistinguishable from
the first submission's index. -/
theorem claim3_counterexample :
    getBestLoop (initLoopState 0 3 0 false true) = 0 := by
  rfl

/-- C3 (amended): when `get_best()` is called on a controller that has
recorded no reviews, it returns the index `0` (not a distinguishable
sentinel). -/
theorem claim3_theorem (s : LoopState) (h : s.reviews = []) :
    getBestLoop s = 0 := by
  unfold getBestLoop
  rw [h]
  rfl

/-- C3 witness: the amended theorem applied to a concrete fresh state. -/
theorem claim3_witness : getBestLoop (initLoopState 1 5 2 true false) = 0 :=
  claim3_theorem (initLoopState 1 5 2 true false) rfl

theorem clamp_eq_min (q : ℚ) : (if q > 100 then 100 else q) = min q 100 := by
  rcases le_or_lt q 100 with h | h
  · rw [if_neg (not_lt.mpr h), min_eq_left h]
  · rw [if_pos h, min_eq_right h.le]

/-- C6: pairwise verdict interpretation (`BinaryReviewer.interpret`) agrees
everywhere with the specification read of it as a function of the last line
only (number of the line read as a confidence, clamped to at most `100`,
divided by `100`; winner `0` on "first", `1` on "second", default
`(0, 0)`); in particular the response whose last line is
`... the answer is second (90)` yields winner `1` and confidence `9/10`. -/
theorem claim6_theorem :
    (∀ response, binReviewerInterpret response = binInterpretSpecLine (lastLine response)) ∧
    binReviewerInterpret "... the answer is second (90)" = (1, 9 / 10) := by
  constructor
  · intro response
    unfold binReviewerInterpret binInterpretSpecLine
    cases hf : findFirstNumber (lastLine response).toList with
    | none =>
      simp only [hf, Option.map_none', Option.getD_none]
      rw [clamp_eq_min]
    | some m =>
      simp only [hf, Option.map_some', Option.getD_some]
      rw [clamp_eq_min]
  · have h1 : lastLine "... the answer is second (90)" = "... the answer is second (90)" := by
      decide
    have h2 : findFirstNumber "... the answer is second (90)".toList = some ['9', '0'] := by
      decide
    have h3 : strContainsSub (pyLower "... the answer is second (90)") "first" = false := by
      decide
    have h4 : strContainsSub (pyLower "... the answer is second (90)") "second" = true := by
      decide
    have h5 : parseQ ['9', '0'] = 90 := by decide
    unfold binReviewerInterpret
    simp only [h1, h2, h3, h4, h5]
    norm_num

/-- C7: the spec claims desk rejection whenever the exit status is present
but *not equal* to `"submitted"` (with `reject_exit_status` configured).
The source compares the *stripped* exit status: with exit status
`"submitted "` (trailing blank) the code does not desk-reject — it performs
a model query (second component `1`), produces a non-empty messages list
and a numeric (non-`False`) accept value, refuting the claim as stated. -/
theorem claim7_counterexample :
    (some "submitted " ≠ some "submitted") ∧
    cfgRev.rejectExitStatus = true ∧
    (reviewerReview cfgRev msgsW (some "submitted ") (fun _ => "Score: 50")).2 = 1 ∧
    (reviewerReview cfgRev msgsW (some "submitted ") (fun _ => "Score: 50")).1.messages ≠ [] ∧
    (reviewerReview cfgRev msgsW (some "submitted ") (fun _ => "Score: 50")).1.accept ≠
      .ofBool false := by
  refine ⟨by decide, rfl, by decide, by decide, by decide⟩

/-- C7 (amended): for every submission whose exit-status metadata is
missing, or — when `reject_exit_status` is configured — whose exit status
*after stripping whitespace* is not `"submitted"`, `Reviewer.review`
returns a rejecting result (`accept = False`) without any model query and
with an empty messages list. -/
theorem claim7_theorem (cfg : ReviewerCfg) (msgs : List Message)
    (exitStatus : Option String) (responses : ℕ → String)
    (h : exitStatus = none ∨
      (cfg.rejectExitStatus = true ∧
        ∃ es, exitStatus = some es ∧ pyStrip es ≠ "submitted")) :
    (reviewerReview cfg msgs exitStatus responses).1.accept = .ofBool false ∧
    (reviewerReview cfg msgs exitStatus responses).1.messages = [] ∧
    (reviewerReview cfg msgs exitStatus responses).2 = 0 := by
  rcases h with h | ⟨hrej, es, hes, hne⟩
  · subst h
    exact ⟨rfl, rfl, rfl⟩
  · subst hes
    simp only [reviewerReview]
    by_cases hemp : es = ""
    · rw [if_pos hemp]
      exact ⟨rfl, rfl, rfl⟩
    · rw [if_neg hemp, if_pos ⟨hrej, hne⟩]
      exact ⟨rfl, rfl, rfl⟩

/-- C7 witness: the amended theorem applied to a submission with missing
exit status. -/
theorem claim7_witness :
    (reviewerReview cfgRev msgsW none (fun _ => "Score: 50")).1.accept = .ofBool false ∧
    (reviewerReview cfgRev msgsW none (fun _ => "Score: 50")).1.messages = [] ∧
    (reviewerReview cfgRev msgsW none (fun _ => "Score: 50")).2 = 0 :=
  claim7_theorem cfgRev msgsW none (fun _ => "Score: 50") (Or.inl rfl)

theorem le_foldl_max (t : List ℚ) (x : ℚ) :
    x ≤ t.foldl max x ∧ ∀ y ∈ t, y ≤ t.foldl max x := by
  induction t generalizing x with
  | nil => exact ⟨le_refl x, by simp⟩
  | cons a t ih =>
    have h := ih (max x a)
    rw [List.foldl_cons]
    refine ⟨le_trans (le_max_left x a) h.1, ?_⟩
    intro y hy
    rcases List.mem_cons.mp hy with rfl | hy'
    · exact le_trans (le_max_right x y) h.1
    · exact h.2 y hy'

theorem foldl_max_mem (t : List ℚ) (x : ℚ) : t.foldl max x ∈ x :: t := by
  induction t generalizing x with
  | nil => simp
  | cons a t ih =>
    rw [List.foldl_cons]
    rcases List.mem_cons.mp (ih (max x a)) with h1 | h1
    · rcases max_choice x a with h2 | h2 <;> rw [h1, h2]
      · exact List.mem_cons_self _ _
      · exact List.mem_cons_of_mem _ (List.mem_cons_self _ _)
    · exact List.mem_cons_of_mem _ (List.mem_cons_of_mem _ h1)

theorem headD_append_left {α : Type} (l1 l2 : List α) (d : α) (h : l1 ≠ []) :
    (l1 ++ l2).headD d = l1.headD d := by
  cases l1 with
  | nil => exact absurd rfl h
  | cons a t => rfl

theorem head_filter_range (n : ℕ) (p : ℕ → Bool) (h : ∃ i, i < n ∧ p i = true) :
    p (((List.range n).filter p).headD 0) = true ∧
    ((List.range n).filter p).headD 0 < n ∧
    ∀ j < ((List.range n).filter p).headD 0, p j = false := by
  induction n with
  | zero =>
    obtain ⟨i, hi, _⟩ := h
    omega
  | succ n ih =>
    rw [List.range_succ, List.filter_append]
    by_cases hn : ∃ i, i < n ∧ p i = true
    · have hne : (List.range n).filter p ≠ [] := by
        obtain ⟨i, hi, hpi⟩ := hn
        intro hnil
        have hmem : i ∈ (List.range n).filter p :=
          List.mem_filter.mpr ⟨List.mem_range.mpr hi, hpi⟩
        rw [hnil] at hmem
        exact absurd hmem (List.not_mem_nil i)
      rw [headD_append_left _ _ _ hne]
      obtain ⟨h1, h2, h3⟩ := ih hn
      exact ⟨h1, by omega, h3⟩
    · push_neg at hn
      have hfil : (List.range n).filter p = [] := by
        rw [List.filter_eq_nil_iff]
        intro a ha
        simpa using hn a (List.mem_range.mp ha)
      obtain ⟨i, hi, hpi⟩ := h
      have hin : i = n := by
        rcases Nat.lt_succ_iff_lt_or_eq.mp hi with h' | h'
        · exact absurd hpi (hn i h')
        · exact h'
      subst hin
      rw [hfil, List.nil_append]
      have hone : List.filter p [i] = [i] := by
        simp [List.filter, hpi]
      rw [hone]
      simp only [List.headD_cons]
      refine ⟨hpi, Nat.lt_succ_self i, ?_⟩
      intro j hj
      simpa using hn j (by omega)

/-- C4: for every non-empty list of review scores, `get_best()` returns an
in-range index whose score is within `1e-10` of the maximum score, and
every smaller index is not within `1e-10` of the maximum — i.e. the
smallest index of a tied maximum. -/
theorem claim4_theorem (scores : List ℚ) (h : scores ≠ []) :
    getBest scores < scores.length ∧
    |scores.getD (getBest scores) 0 - (maxScoreQ scores).getD 0| ≤ epsTie ∧
    ∀ j < getBest scores,
      ¬(|scores.getD j 0 - (maxScoreQ scores).getD 0| ≤ epsTie) := by
  obtain ⟨x, t, rfl⟩ : ∃ x t, scores = x :: t := by
    cases scores with
    | nil => exact absurd rfl h
    | cons x t => exact ⟨x, t, rfl⟩
  have hgb : getBest (x :: t) =
      ((List.range (x :: t).length).filter
        (fun i => decide (|(x :: t).getD i 0 - (maxScoreQ (x :: t)).getD 0| ≤ epsTie))).headD 0 := by
    unfold getBest
    rw [if_neg (by simp)]
  have hmem : (maxScoreQ (x :: t)).getD 0 ∈ x :: t := foldl_max_mem t x
  obtain ⟨i, hi, hieq⟩ := List.mem_iff_getElem.mp hmem
  have hex : ∃ i, i < (x :: t).length ∧
      (fun i => decide (|(x :: t).getD i 0 - (maxScoreQ (x :: t)).getD 0| ≤ epsTie)) i = true := by
    refine ⟨i, hi, ?_⟩
    simp only [decide_eq_true_eq]
    rw [List.getD_eq_getElem _ _ hi, hieq, sub_self, abs_zero]
    rw [epsTie]
    positivity
  obtain ⟨h1, h2, h3⟩ := head_filter_range (x :: t).length _ hex
  rw [← hgb] at h1 h2 h3
  refine ⟨h2, ?_, ?_⟩
  · simpa using h1
  · intro j hj hcontra
    have := h3 j hj
    simp only [decide_eq_false_iff_not] at this
    exact this hcontra

/-- C4 witness: for scores `[0.4, 0.9, 0.9]` the theorem pins the returned
index to `1`, the earliest of the tied maxima. -/
theorem claim4_witness : getBest [(2 : ℚ)/5, 9/10, 9/10] = 1 := by
  have h := claim4_theorem [(2 : ℚ)/5, 9/10, 9/10] (List.cons_ne_nil _ _)
  have hmax : (maxScoreQ [(2 : ℚ)/5, 9/10, 9/10]).getD 0 = 9/10 := by
    simp only [maxScoreQ, List.foldl_cons, List.foldl_nil, Option.getD_some]
    rw [max_eq_right (by norm_num)]
  rw [hmax] at h
  obtain ⟨h1, h2, h3⟩ := h
  set g := getBest [(2 : ℚ)/5, 9/10, 9/10] with hg
  have h1' : g < 3 := by simpa using h1
  interval_cases g
  · exfalso
    simp only [List.getD, List.get?, Option.getD_some] at h2
    rw [show |((2 : ℚ)/5) - 9/10| = 1/2 by norm_num [abs_sub_comm, abs_of_nonneg]] at h2
    norm_num [epsTie] at h2
  · rfl
  · exfalso
    refine h3 1 (by omega) ?_
    simp only [List.getD, List.get?, Option.getD_some]
    rw [sub_self, abs_zero, epsTie]
    positivity

/-- C8: in every reachable state of the retry controller the number of
recorded submissions equals the number of recorded reviews — `on_submit`
appends the submission and immediately appends exactly one review, and no
other event touches either list. -/
theorem claim8_theorem (cfg : LoopCfg) (s : LoopState) (h : ReachableLoop cfg s) :
    s.submissions.length = s.reviews.length := by
  induction h with
  | init temperature costLimit cost isHuman isLiteLLM => rfl
  | submit sub msgs responses h ih =>
    simp only [onSubmit, List.length_append, List.length_cons, List.length_nil]
    omega
  | attemptStarted iAttempt h ih =>
    unfold onAttemptStarted
    split
    · exact ih
    · split <;> split <;> simpa using ih
  | externalCost c h ih => simpa using ih

/-- C8 witness: the invariant applied to the concrete reachable state after
one submission. -/
theorem claim8_witness : stOne.submissions.length = stOne.reviews.length :=
  claim8_theorem cfgW stOne
    (ReachableLoop.submit ⟨some "submitted"⟩ msgsW (fun _ => "Score: 80")
      (ReachableLoop.init 0 3 0 false true))

/-- C9: with the score-tier table empty, the exit-cost stop disabled, a
positive minimal budget configured and a non-human model, `retry()` returns
false once the cumulative spent cost exceeds the configured limit
`instance_cost_limit - min_budget_for_new_attempt`, and true while the
cumulative cost is under that limit. -/
theorem claim9_theorem (cfg : LoopCfg) (s : LoopState)
    (h1 : cfg.maxAttemptsForScore = [])
    (h2 : cfg.maxNConsecExitCost = 0)
    (h3 : 0 < cfg.minBudgetForNewAttempt)
    (h4 : s.modelIsHuman = false)
    (h5 : s.reviews ≠ []) :
    (s.modelCostLimit - cfg.minBudgetForNewAttempt < s.modelCost →
      retryLoop cfg s = some false) ∧
    (s.modelCost < s.modelCostLimit - cfg.minBudgetForNewAttempt →
      retryLoop cfg s = some true) := by
  obtain ⟨r, rs, hr⟩ : ∃ r rs, s.reviews = r :: rs := by
    cases hrv : s.reviews with
    | nil => exact absurd hrv h5
    | cons r rs => exact ⟨r, rs, rfl⟩
  have hform : ∀ q : ℚ, retryBody cfg s q = decide
      ¬(0 < cfg.minBudgetForNewAttempt ∧
        s.modelCostLimit - s.modelCost < cfg.minBudgetForNewAttempt ∧
        ¬s.modelIsHuman = true) := by
    intro q
    unfold retryBody
    rw [h1]
    rw [if_neg (by simp [sortDescByKey])]
    rw [h2]
    rw [if_neg (by simp)]
    rcases Classical.em (0 < cfg.minBudgetForNewAttempt ∧
        s.modelCostLimit - s.modelCost < cfg.minBudgetForNewAttempt ∧
        ¬s.modelIsHuman = true) with hc | hc
    · rw [if_pos ?_, decide_eq_false (by simpa using hc)]
      exact ⟨hc.1, hc.2.1, hc.2.2⟩
    · rw [if_neg ?_, decide_eq_true (by simpa using hc)]
      exact hc
  constructor
  · intro hcost
    unfold retryLoop
    rw [hr, List.map_cons]
    simp only [maxScoreQ, Option.map_some']
    rw [hform]
    have hc : (0 < cfg.minBudgetForNewAttempt ∧
        s.modelCostLimit - s.modelCost < cfg.minBudgetForNewAttempt ∧
        ¬s.modelIsHuman = true) := ⟨h3, by linarith, by simp [h4]⟩
    rw [decide_eq_false (not_not_intro hc)]
  · intro hcost
    unfold retryLoop
    rw [hr, List.map_cons]
    simp only [maxScoreQ, Option.map_some']
    rw [hform]
    have hc : ¬(0 < cfg.minBudgetForNewAttempt ∧
        s.modelCostLimit - s.modelCost < cfg.minBudgetForNewAttempt ∧
        ¬s.modelIsHuman = true) := by
      rintro ⟨-, hlt, -⟩
      linarith
    rw [decide_eq_true hc]

/-- C9 witness: the theorem applied to the concrete over-budget state
`stHigh` (cost limit 3, minimal budget 1, spent cost 100). -/
theorem claim9_witness : retryLoop cfgW9 stHigh = some false :=
  (claim9_theorem cfgW9 stHigh rfl rfl (by norm_num [cfgW9, cfgW]) rfl (by decide)).1
    (show (3 : ℚ) - 1 < 100 by norm_num)

/-- C10: `retry()` requires at least one recorded review: on an empty
review list the maximum of the empty score sequence is undefined and the
call fails (`none`); with at least one review both the maximum and the
retry decision are always defined. -/
theorem claim10_theorem (cfg : LoopCfg) (s : LoopState) :
    (s.reviews = [] → retryLoop cfg s = none) ∧
    (s.reviews ≠ [] →
      (maxScoreQ (s.reviews.map (fun r => r.accept.toQ))).isSome = true ∧
      (retryLoop cfg s).isSome = true) := by
  constructor
  · intro h
    unfold retryLoop
    rw [h]
    rfl
  · intro h
    obtain ⟨r, rs, hr⟩ : ∃ r rs, s.reviews = r :: rs := by
      cases hrv : s.reviews with
      | nil => exact absurd hrv h
      | cons r rs => exact ⟨r, rs, rfl⟩
    unfold retryLoop
    rw [hr, List.map_cons]
    exact ⟨rfl, rfl⟩

/-- C10 witness: the theorem applied to a fresh controller (no reviews:
`retry()` fails) and to the same controller after one submission (defined
result). -/
theorem claim10_witness :
    retryLoop cfgW stEmpty = none ∧ (retryLoop cfgW stOne).isSome = true :=
  ⟨(claim10_theorem cfgW stEmpty).1 rfl,
   ((claim10_theorem cfgW stOne).2 (by decide)).2⟩

theorem mem_firstOccur_aux (l acc : List String) (a : String) :
    a ∈ l.foldl (fun acc b => if b ∈ acc then acc else acc ++ [b]) acc ↔
      a ∈ acc ∨ a ∈ l := by
  induction l generalizing acc with
  | nil => simp
  | cons b t ih =>
    rw [List.foldl_cons, ih]
    by_cases hb : b ∈ acc
    · rw [if_pos hb]
      constructor
      · rintro (h | h)
        · exact Or.inl h
        · exact Or.inr (List.mem_cons_of_mem _ h)
      · rintro (h | h)
        · exact Or.inl h
        · rcases List.mem_cons.mp h with h' | h'
          · exact Or.inl (by rw [h']; exact hb)
          · exact Or.inr h'
    · rw [if_neg hb]
      simp only [List.mem_append, List.mem_singleton, List.mem_cons]
      tauto

theorem mem_firstOccur (l : List String) (a : String) :
    a ∈ firstOccur l ↔ a ∈ l := by
  unfold firstOccur
  rw [mem_firstOccur_aux]
  simp

theorem nodup_firstOccur_aux (l acc : List String) (h : acc.Nodup) :
    (l.foldl (fun acc b => if b ∈ acc then acc else acc ++ [b]) acc).Nodup := by
  induction l generalizing acc with
  | nil => simpa
  | cons b t ih =>
    rw [List.foldl_cons]
    by_cases hb : b ∈ acc
    · rw [if_pos hb]
      exact ih acc h
    · rw [if_neg hb]
      have hd : acc.Disjoint [b] := by
        intro x hx hxb
        rw [List.mem_singleton] at hxb
        subst hxb
        exact hb hx
      exact ih _ (List.nodup_append.mpr ⟨h, List.nodup_singleton b, hd⟩)

theorem nodup_firstOccur (l : List String) : (firstOccur l).Nodup :=
  nodup_firstOccur_aux l [] List.nodup_nil

theorem firstOccur_append (l : List String) (a : String) :
    firstOccur (l ++ [a]) =
      if a ∈ l then firstOccur l else firstOccur l ++ [a] := by
  have hstep : firstOccur (l ++ [a]) =
      (if a ∈ firstOccur l then firstOccur l else firstOccur l ++ [a]) := by
    unfold firstOccur
    rw [List.foldl_append]
    rfl
  rw [hstep]
  simp only [mem_firstOccur]

theorem occEntries_append (cs : List (String × String)) (pc : String × String)
    (a : String) :
    occEntries (cs ++ [pc]) a =
      occEntries cs a ++ if pc.2 = a then [pc] else [] := by
  unfold occEntries
  rw [List.filter_append]
  congr 1
  by_cases h : pc.2 = a
  · simp [List.filter, h]
  · simp [List.filter, h]

theorem occEntries_eq_nil (cs : List (String × String)) (a : String)
    (h : a ∉ cs.map Prod.snd) : occEntries cs a = [] := by
  unfold occEntries
  rw [List.filter_eq_nil_iff]
  intro pc hpc
  simp only [decide_eq_true_eq]
  intro hceq
  exact h (hceq ▸ List.mem_map_of_mem Prod.snd hpc)

theorem occThoughts_ne_nil (cs : List (String × String)) (a : String)
    (h : a ∈ cs.map Prod.snd) : occThoughts cs a ≠ [] := by
  obtain ⟨pc, hpc, rfl⟩ := List.mem_map.mp h
  have hmem : pc ∈ cs.filter (fun pc' => pc'.2 = pc.2) :=
    List.mem_filter.mpr ⟨hpc, by simp⟩
  intro hnil
  have hfst : pc.1 ∈ occThoughts cs pc.2 :=
    List.mem_map_of_mem Prod.fst hmem
  rw [hnil] at hfst
  exact absurd hfst (List.not_mem_nil _)

theorem getD_map_indexOf {β : Type} (A : List String) (f : String → β)
    (x : String) (d : β) (h : x ∈ A) :
    (A.map f).getD (A.indexOf x) d = f x := by
  induction A with
  | nil => exact absurd h (List.not_mem_nil x)
  | cons b t ih =>
    by_cases hbx : b = x
    · subst hbx
      rw [List.indexOf_cons_self, List.map_cons, List.getD_cons_zero]
    · rw [List.indexOf_cons_ne _ hbx, List.map_cons, List.getD_cons_succ]
      rcases List.mem_cons.mp h with rfl | hxt
      · exact absurd rfl hbx
      · exact ih hxt

theorem map_set_indexOf {β : Type} (A : List String) (f g : String → β)
    (x : String) (hnd : A.Nodup) (hx : x ∈ A)
    (hagree : ∀ a ∈ A, a ≠ x → g a = f a) :
    A.map g = (A.map f).set (A.indexOf x) (g x) := by
  induction A with
  | nil => exact absurd hx (List.not_mem_nil x)
  | cons b t ih =>
    rcases List.nodup_cons.mp hnd with ⟨hbt, hndt⟩
    by_cases hbx : b = x
    · subst hbx
      rw [List.indexOf_cons_self, List.map_cons, List.map_cons, List.set_cons_zero]
      congr 1
      apply List.map_congr_left
      intro a ha
      refine hagree a (List.mem_cons_of_mem _ ha) ?_
      intro hax
      subst hax
      exact hbt ha
    · rw [List.indexOf_cons_ne _ hbx, List.map_cons, List.map_cons, List.set_cons_succ]
      have hxt : x ∈ t := by
        rcases List.mem_cons.mp hx with rfl | hxt
        · exact absurd rfl hbx
        · exact hxt
      congr 1
      · exact hagree b (List.mem_cons_self _ _) hbx
      · exact ih hndt hxt (fun a ha hax => hagree a (List.mem_cons_of_mem _ ha) hax)

theorem set_getD_self {β : Type} (l : List β) (i : ℕ) (d : β)
    (h : i < l.length) : l.set i (l.getD i d) = l := by
  induction l generalizing i with
  | nil => simp at h
  | cons a t ih =>
    cases i with
    | zero => rfl
    | succ n =>
      rw [List.getD_cons_succ, List.set_cons_succ]
      congr 1
      exact ih n (by simpa using h)

theorem bestThought_append (ts : List String) (t : String) (h : ts ≠ []) :
    bestThought (ts ++ [t]) = keepLonger (bestThought ts) t := by
  cases ts with
  | nil => exact absurd rfl h
  | cons a rest =>
    show (rest ++ [t]).foldl keepLonger a = keepLonger (rest.foldl keepLonger a) t
    rw [List.foldl_append]
    rfl

theorem zip_map_triple (A : List String) (f : String → String) (g : String → ℕ) :
    (A.map f).zip (A.zip (A.map g)) = A.map (fun a => (f a, a, g a)) := by
  induction A with
  | nil => rfl
  | cons a t ih =>
    simp only [List.map_cons, List.zip_cons_cons, ih]

theorem updateAt_thoughts {A : List String} {f f' : String → String} {x t1 : String}
    (hnd : A.Nodup) (hx : x ∈ A)
    (hagree : ∀ a ∈ A, a ≠ x → f' a = f a)
    (hfx : f' x = keepLonger (f x) t1) :
    (if ((A.map f).getD (A.indexOf x) "").length < t1.length
      then (A.map f).set (A.indexOf x) t1 else A.map f) = A.map f' := by
  have hgetd : (A.map f).getD (A.indexOf x) "" = f x := getD_map_indexOf A f x "" hx
  have hset : A.map f' = (A.map f).set (A.indexOf x) (f' x) :=
    map_set_indexOf A f f' x hnd hx hagree
  rw [hset, hfx, hgetd]
  unfold keepLonger
  by_cases hlen : (f x).length < t1.length
  · rw [if_pos hlen, if_pos hlen]
  · rw [if_neg hlen, if_neg hlen, ← hgetd]
    refine (set_getD_self _ _ _ ?_).symm
    rw [List.length_map]
    exact List.indexOf_lt_length.mpr hx

theorem updateAt_counts {A : List String} {g g' : String → ℕ} {x : String}
    (hnd : A.Nodup) (hx : x ∈ A)
    (hagree : ∀ a ∈ A, a ≠ x → g' a = g a)
    (hgx : g' x = g x + 1) :
    (A.map g).set (A.indexOf x) ((A.map g).getD (A.indexOf x) 0 + 1) = A.map g' := by
  have hgetd : (A.map g).getD (A.indexOf x) 0 = g x := getD_map_indexOf A g x 0 hx
  rw [map_set_indexOf A g g' x hnd hx hagree, hgx, hgetd]

theorem fdLoop_eq_spec (cs : List (String × String)) :
    cs.foldl fdStep ([], [], []) =
      ((firstOccur (cs.map Prod.snd)).map (fun a => bestThought (occThoughts cs a)),
       firstOccur (cs.map Prod.snd),
       (firstOccur (cs.map Prod.snd)).map (fun a => occCount cs a)) := by
  induction cs using List.reverseRecOn with
  | nil => rfl
  | append_singleton cs pc ih =>
    rw [List.foldl_append, ih]
    simp only [List.foldl_cons, List.foldl_nil, List.map_append, List.map_cons,
      List.map_nil, firstOccur_append]
    have hcnt : ∀ a, occCount (cs ++ [pc]) a =
        occCount cs a + if pc.2 = a then 1 else 0 := by
      intro a
      unfold occCount
      rw [occEntries_append, List.length_append]
      congr 1
      by_cases h : pc.2 = a <;> simp [h]
    have hth : ∀ a, a ≠ pc.2 → occThoughts (cs ++ [pc]) a = occThoughts cs a := by
      intro a ha
      unfold occThoughts
      rw [occEntries_append, if_neg (fun h => ha h.symm), List.append_nil]
    have hthp : occThoughts (cs ++ [pc]) pc.2 = occThoughts cs pc.2 ++ [pc.1] := by
      unfold occThoughts
      rw [occEntries_append, if_pos rfl, List.map_append]
      rfl
    by_cases hmem : pc.2 ∈ cs.map Prod.snd
    · rw [if_pos hmem]
      have hmemA : pc.2 ∈ firstOccur (cs.map Prod.snd) := (mem_firstOccur _ _).mpr hmem
      unfold fdStep
      dsimp only
      rw [if_pos hmemA]
      simp only [Prod.mk.injEq]
      refine ⟨?_, trivial, ?_⟩
      · refine updateAt_thoughts (nodup_firstOccur _) hmemA ?_ ?_
        · intro a ha hax
          rw [hth a hax]
        · rw [hthp]
          exact bestThought_append _ _ (occThoughts_ne_nil cs pc.2 hmem)
      · refine updateAt_counts (nodup_firstOccur _) hmemA ?_ ?_
        · intro a ha hax
          rw [hcnt a, if_neg (fun h => hax h.symm), Nat.add_zero]
        · rw [hcnt pc.2, if_pos rfl]
    · rw [if_neg hmem]
      have hmemA : pc.2 ∉ firstOccur (cs.map Prod.snd) :=
        fun hc => hmem ((mem_firstOccur _ _).mp hc)
      unfold fdStep
      dsimp only
      rw [if_neg hmemA]
      have hnilp : occThoughts cs pc.2 = [] := by
        unfold occThoughts
        rw [occEntries_eq_nil cs pc.2 hmem]
        rfl
      simp only [Prod.mk.injEq]
      have hagreeth : ∀ a ∈ firstOccur (cs.map Prod.snd),
          bestThought (occThoughts (cs ++ [pc]) a) = bestThought (occThoughts cs a) := by
        intro a ha
        have hax : a ≠ pc.2 := by
          intro hax
          subst hax
          exact hmemA ha
        rw [hth a hax]
      have hagreecnt : ∀ a ∈ firstOccur (cs.map Prod.snd),
          occCount (cs ++ [pc]) a = occCount cs a := by
        intro a ha
        have hax : a ≠ pc.2 := by
          intro hax
          subst hax
          exact hmemA ha
        rw [hcnt a, if_neg (fun h => hax h.symm), Nat.add_zero]
      refine ⟨?_, trivial, ?_⟩
      · rw [List.map_append]
        congr 1
        · exact (List.map_congr_left hagreeth).symm
        · rw [List.map_cons, List.map_nil]
          congr 1
          rw [hthp, hnilp]
          rfl
      · rw [List.map_append]
        congr 1
        · exact (List.map_congr_left hagreecnt).symm
        · rw [List.map_cons, List.map_nil]
          congr 1
          rw [hcnt pc.2, if_pos rfl]
          unfold occCount
          rw [occEntries_eq_nil cs pc.2 hmem]
          rfl

/-- C5: `filter_duplicates` produces, for every input list of parsed
`(thought, action)` candidates, exactly one entry per distinct action text
in order of first occurrence; each entry's vote count is the number of
occurrences of its action, and its retained thought is the first
occurrence's thought replaced by a later duplicate's exactly when that one
is strictly longer (the `filterDuplicatesSpec`/`bestThought` reading of the
spec); in particular the entries' action texts are pairwise distinct. -/
theorem claim5_theorem (cs : List (String × String)) :
    filterDuplicates cs = filterDuplicatesSpec cs ∧
    ((filterDuplicates cs).map (fun e => e.2.1)).Nodup := by
  have hmain : filterDuplicates cs = filterDuplicatesSpec cs := by
    unfold filterDuplicates filterDuplicatesSpec
    rw [fdLoop_eq_spec]
    exact zip_map_triple _ _ _
  refine ⟨hmain, ?_⟩
  have h2 : (filterDuplicatesSpec cs).map (fun e => e.2.1) =
      firstOccur (cs.map Prod.snd) := by
    unfold filterDuplicatesSpec
    rw [List.map_map]
    show (firstOccur (cs.map Prod.snd)).map (fun a => a) = firstOccur (cs.map Prod.snd)
    exact List.map_id' _
  rw [hmain, h2]
  exact nodup_firstOccur (cs.map Prod.snd)

/-- C1: the claim says `get_action` returns the raw completion the final
champion was parsed from, also under parse failures or duplicate collapse.
The source indexes the *raw* completions list with the champion's index
into the *deduplicated* list (`completions[best_idx]`), so the two drift
apart as soon as the lists differ.  Concretely: completions
`["A1", "A2", "B"]` where `"A1"`/`"A2"` parse to the same action `"a"` and
`"B"` to `"b"`; after deduplication one comparison is run and the judge
answers "second", so the champion is the deduplicated entry 1 —
`("u", "b", 1)`, parsed only from `"B"` — yet the code returns
`completions[1] = "A2"`, a raw completion whose action is the losing
`"a"`.  (The `best_response_picker.py` copy returns the same
`completions[best_idx]` expression and mismatches identically under parse
failures.) -/
theorem claim1_theorem :
    getActionBTC parseFnC1 ["second"] compsC1 = some ("A2", [(0, 1, 1)]) ∧
    (filterDuplicates (compsC1.filterMap parseFnC1)).getD 1 ("", "", 0) = ("u", "b", 1) ∧
    parseFnC1 "A2" = some ("t", "a") ∧
    parseFnC1 "B" = some ("u", "b") ∧
    ("A2" : String) ≠ "B" := by
  decide

end SweAgent
